import Mathlib

/-!
Verification development for the MSB group-bitset / merge / batch-transform
subsystem of `soulstruct` (`src/soulstruct/base/maps/msb/utils.py`).

The Python source is shallowly embedded: the mutable `GroupBitSet` value is
represented by its only field `enabled_bits : Finset ℤ` (Python `set[int]` of
arbitrary-precision signed integers), fallible operations return
`Except PyError`, and the helper functions from `soulstruct.utilities`
(absent from the supplied sources) are modelled from the specification, as
flagged in their doc comments.
-/

deriving instance DecidableEq for Except

namespace Soulstruct

/-- Abstract error kinds for the Python exceptions raised by the embedded
code paths (`ValueError`, `TypeError`, `KeyError`, the spec's
SizeMismatchError, the `re` mismatch `ValueError` of `from_repr`, and the
`SyntaxError` that `ast.literal_eval` can raise). -/
inductive PyError where
  | valueError
  | typeError
  | keyError
  | sizeMismatchError
  | syntaxError
deriving DecidableEq, Repr

/-- The injection `ℕ → ℤ` used to view decoded (nonnegative) bit positions
as members of the Python `set[int]`. -/
def natIntEmb : ℕ ↪ ℤ := ⟨Int.ofNat, fun _ _ h => Int.ofNat.inj h⟩

/-- Decode a list of unsigned 32-bit words into the set of enabled global
bit positions: global bit `b = 32*w + i` is enabled iff bit `i` of word `w`
is set. -/
def decodeWords (words : List ℕ) : Finset ℤ :=
  ((Finset.range (32 * words.length)).filter
    (fun b => (words.getD (b / 32) 0).testBit (b % 32))).map natIntEmb

/-- Modelled from the spec: `int_group_to_bit_set` from
`soulstruct.utilities.conversion` (not under `src/`); `from_words` "decodes
bit `i` of word index `w` as enabled iff the bit is set" and "the number of
words must equal `BIT_COUNT / 32` exactly, else fails with a size-mismatch
error" — the size actually asserted is the `assert_size` argument supplied
by the caller. -/
def int_group_to_bit_set (int_group : List ℕ) (assert_size : Option ℕ) :
    Except PyError (Finset ℤ) :=
  match assert_size with
  | some n =>
    if int_group.length = n then .ok (decodeWords int_group)
    else .error .sizeMismatchError
  | none => .ok (decodeWords int_group)

/-- Embeds the `set` branch of `GroupBitSet.__init__`
(`utils.py` lines 88-91): accepts the set iff every member `i` satisfies
`i < BIT_COUNT` (the source performs no lower-bound check), else raises
`TypeError`. -/
def ofBitSet (bitCount : ℕ) (s : Finset ℤ) : Except PyError (Finset ℤ) :=
  if ∀ i ∈ s, i < (bitCount : ℤ) then .ok s else .error .typeError

/-- Embeds the `list` branch of `GroupBitSet.__init__`
(`utils.py` lines 85-87): `int_group_to_bit_set(uint_list, assert_size=len(uint_list))`.
Note the asserted size is the input's own length, not `BIT_COUNT // 32`. -/
def ofUintList (uint_list : List ℕ) : Except PyError (Finset ℤ) :=
  int_group_to_bit_set uint_list (some uint_list.length)

/-- Embeds `GroupBitSet.add` (`utils.py` lines 121-124): the range check is
`0 <= bit <= self.BIT_COUNT` (upper bound inclusive), raising `ValueError`
on failure. -/
def add (bitCount : ℕ) (s : Finset ℤ) (bit : ℤ) : Except PyError (Finset ℤ) :=
  if 0 ≤ bit ∧ bit ≤ (bitCount : ℤ) then .ok (insert bit s)
  else .error .valueError

/-- Embeds `GroupBitSet.remove` (`utils.py` lines 134-137): same (inclusive)
range check as `add`, then Python `set.remove`, which raises `KeyError` when
the bit is absent. -/
def remove (bitCount : ℕ) (s : Finset ℤ) (bit : ℤ) : Except PyError (Finset ℤ) :=
  if 0 ≤ bit ∧ bit ≤ (bitCount : ℤ) then
    if bit ∈ s then .ok (s.erase bit) else .error .keyError
  else .error .valueError

/-- Embeds `GroupBitSet.to_sorted_bit_list` (`utils.py` lines 105-107). -/
def to_sorted_bit_list (s : Finset ℤ) : List ℤ :=
  s.sort (· ≤ ·)

/-- Word `w` of the packed form of a bit set: bit `j` of the word is set iff
global bit `32*w + j` is enabled. -/
def word_of (s : Finset ℤ) (w : ℕ) : ℕ :=
  (Finset.range 32).sum (fun j => if ((32 * w + j : ℕ) : ℤ) ∈ s then 2 ^ j else 0)

/-- Modelled from the spec: `bit_set_to_int_group` from
`soulstruct.utilities.conversion` (not under `src/`); `to_words` is the
"inverse of `from_words`; length always `BIT_COUNT/32`", packing global bit
`32*w + i` into bit `i` of word `w`. -/
def bit_set_to_int_group (enabled_flags : Finset ℤ) (group_size : ℕ) : List ℕ :=
  (List.range group_size).map (word_of enabled_flags)

/-- Embeds `GroupBitSet.to_uints` (`utils.py` lines 109-110):
`bit_set_to_int_group(enabled_flags=self.enabled_bits, group_size=self.BIT_COUNT // 32)`. -/
def to_uints (bitCount : ℕ) (s : Finset ℤ) : List ℕ :=
  bit_set_to_int_group s (bitCount / 32)

/-- Claim C1: the invariant `0 <= bit < BIT_COUNT` is NOT enforced as
claimed: on a 128-bit set, `add(128)` succeeds (the source checks
`0 <= bit <= BIT_COUNT`, upper bound inclusive) and constructing from the
sparse set `{-1}` succeeds (the source checks only `i < BIT_COUNT`, with no
lower bound), while `add(-1)` does fail and `add(127)` does succeed as
claimed. -/
theorem groupBitSet_range_check_code_bug :
    add 128 (∅ : Finset ℤ) 128 = .ok ({128} : Finset ℤ)
    ∧ ofBitSet 128 ({-1} : Finset ℤ) = .ok ({-1} : Finset ℤ)
    ∧ add 128 (∅ : Finset ℤ) (-1) = .error .valueError
    ∧ add 128 (∅ : Finset ℤ) 127 = .ok ({127} : Finset ℤ)
    ∧ ofBitSet 128 ({128} : Finset ℤ) = .error .typeError := by
  decide

/-- Claim C2: the size check on the word-list construction path is vacuous:
the source passes `assert_size=len(uint_list)`, so a 3-word or 5-word list
is accepted by a 128-bit (4-word) `GroupBitSet` without any error; the
modelled helper would report the mismatch if it were given the intended
size `BIT_COUNT // 32 = 4`. -/
theorem groupBitSet_word_size_check_code_bug :
    ofUintList [0, 0, 0] = .ok (∅ : Finset ℤ)
    ∧ ofUintList [1, 0, 0, 0, 0] = .ok ({(0 : ℤ)} : Finset ℤ)
    ∧ int_group_to_bit_set [0, 0, 0] (some 4) = .error .sizeMismatchError := by
  decide

/-- The packed word of a predicate on bit offsets is bounded by `2 ^ n`. -/
theorem sum_ite_pow_lt (P : ℕ → Prop) [DecidablePred P] :
    ∀ n, (Finset.range n).sum (fun j => if P j then 2 ^ j else 0) < 2 ^ n := by
  intro n
  induction n with
  | zero => simp
  | succ n ih =>
    rw [Finset.sum_range_succ]
    have h2 : (if P n then 2 ^ n else 0) ≤ 2 ^ n := by split <;> simp
    have hp : (2 : ℕ) ^ (n + 1) = 2 ^ n * 2 := pow_succ 2 n
    omega

/-- Reading bit `k` of the packed word recovers the predicate at `k`. -/
theorem testBit_sum_ite (P : ℕ → Prop) [DecidablePred P] :
    ∀ n k, k < n →
      ((Finset.range n).sum (fun j => if P j then 2 ^ j else 0)).testBit k
        = decide (P k) := by
  intro n
  induction n with
  | zero => intro k hk; omega
  | succ n ih =>
    intro k hk
    rw [Finset.sum_range_succ]
    by_cases hp : P n
    · rw [if_pos hp]
      rcases Nat.lt_succ_iff_lt_or_eq.mp hk with h | h
      · rw [Nat.add_comm, Nat.testBit_two_pow_add_gt h]
        exact ih k h
      · subst h
        rw [Nat.add_comm, Nat.testBit_two_pow_add_eq,
          Nat.testBit_lt_two_pow (sum_ite_pow_lt P k)]
        simp [hp]
    · rw [if_neg hp, Nat.add_zero]
      rcases Nat.lt_succ_iff_lt_or_eq.mp hk with h | h
      · exact ih k h
      · subst h
        rw [Nat.testBit_lt_two_pow (sum_ite_pow_lt P k)]
        simp [hp]

/-- Bit `j` of the `w`-th packed word tests membership of global bit `32*w + j`. -/
theorem word_of_testBit (s : Finset ℤ) (w j : ℕ) (hj : j < 32) :
    (word_of s w).testBit j = decide (((32 * w + j : ℕ) : ℤ) ∈ s) :=
  testBit_sum_ite (fun j => ((32 * w + j : ℕ) : ℤ) ∈ s) 32 j hj

/-- Decoding the packed words of a valid bit set recovers the set. -/
theorem decodeWords_encode (g : ℕ) (S : Finset ℤ)
    (h : ∀ b ∈ S, 0 ≤ b ∧ b < ((32 * g : ℕ) : ℤ)) :
    decodeWords (bit_set_to_int_group S g) = S := by
  have hlen : (bit_set_to_int_group S g).length = g := by
    simp [bit_set_to_int_group]
  have hget : ∀ i, i < g → (bit_set_to_int_group S g).getD i 0 = word_of S i := by
    intro i hi
    simp [bit_set_to_int_group, List.getD_eq_getElem?_getD, List.getElem?_map,
      List.getElem?_range, hi]
  ext i
  simp only [decodeWords, Finset.mem_map, Finset.mem_filter, Finset.mem_range, hlen,
    natIntEmb, Function.Embedding.coeFn_mk]
  constructor
  · rintro ⟨b, ⟨hb, htb⟩, hbi⟩
    have hdiv : b / 32 < g := by omega
    rw [hget _ hdiv, word_of_testBit _ _ _ (Nat.mod_lt _ (by norm_num))] at htb
    have hdm : 32 * (b / 32) + b % 32 = b := Nat.div_add_mod b 32
    rw [hdm] at htb
    have hmem : ((b : ℕ) : ℤ) ∈ S := of_decide_eq_true htb
    rw [← hbi]
    exact_mod_cast hmem
  · intro hi
    obtain ⟨h0, hlt⟩ := h i hi
    refine ⟨i.toNat, ⟨⟨?_, ?_⟩, ?_⟩⟩
    · have : (i.toNat : ℤ) < ((32 * g : ℕ) : ℤ) := by rwa [Int.toNat_of_nonneg h0]
      exact_mod_cast this
    · have hdiv : i.toNat / 32 < g := by
        have : (i.toNat : ℤ) < ((32 * g : ℕ) : ℤ) := by rwa [Int.toNat_of_nonneg h0]
        have hn : i.toNat < 32 * g := by exact_mod_cast this
        omega
      rw [hget _ hdiv, word_of_testBit _ _ _ (Nat.mod_lt _ (by norm_num))]
      have hdm : 32 * (i.toNat / 32) + i.toNat % 32 = i.toNat := Nat.div_add_mod i.toNat 32
      rw [hdm]
      simp [Int.toNat_of_nonneg h0, hi]
    · exact Int.toNat_of_nonneg h0

/-- Claim C3: for every sparse set `S` of bit indices valid for a
`32*g`-bit `GroupBitSet` (in particular `g = 4` and `g = 8`), constructing
from `S` succeeds and returns exactly `S`, packing with `to_uints` and
decoding the resulting word list back through the list construction path
returns exactly `S` again, and the sorted bit list read out is `sorted S`:
the word/bit-set round trip is lossless. -/
theorem groupBitSet_word_round_trip (g : ℕ) (S : Finset ℤ)
    (h : ∀ b ∈ S, 0 ≤ b ∧ b < ((32 * g : ℕ) : ℤ)) :
    ofBitSet (32 * g) S = .ok S
    ∧ ofUintList (to_uints (32 * g) S) = .ok S
    ∧ to_sorted_bit_list S = S.sort (· ≤ ·) := by
  refine ⟨?_, ?_, rfl⟩
  · rw [ofBitSet, if_pos]
    intro i hi
    exact (h i hi).2
  · have hg : (32 * g) / 32 = g := Nat.mul_div_cancel_left g (by norm_num)
    have hd := decodeWords_encode g S h
    simp [ofUintList, int_group_to_bit_set, to_uints, hg, hd]

/-- Witness for C3 at `g = 4` (a 128-bit set) and `S = {0, 5, 127}`. -/
theorem groupBitSet_word_round_trip_witness :
    (∀ b ∈ ({0, 5, 127} : Finset ℤ), 0 ≤ b ∧ b < ((32 * 4 : ℕ) : ℤ))
    ∧ (ofBitSet (32 * 4) ({0, 5, 127} : Finset ℤ) = .ok ({0, 5, 127} : Finset ℤ)
       ∧ ofUintList (to_uints (32 * 4) ({0, 5, 127} : Finset ℤ))
           = .ok ({0, 5, 127} : Finset ℤ)
       ∧ to_sorted_bit_list ({0, 5, 127} : Finset ℤ)
           = ({0, 5, 127} : Finset ℤ).sort (· ≤ ·)) :=
  ⟨by decide, groupBitSet_word_round_trip 4 ({0, 5, 127} : Finset ℤ) (by decide)⟩

/-- A heap of Python `set[int]` objects, used to make the object identity of
`GroupBitSet.enabled_bits` observable. A `GroupBitSet` object is represented
by the index (reference) of its `enabled_bits` set in the store. -/
structure SetStore where
  sets : List (Finset ℤ)
deriving DecidableEq

/-- Read the set object a `GroupBitSet`'s `enabled_bits` reference points to. -/
def readSet (st : SetStore) (r : ℕ) : Finset ℤ :=
  st.sets.getD r ∅

/-- Embeds the copy branch of `GroupBitSet.__init__` (`utils.py` lines
82-84): `self.enabled_bits = uint_list_or_bit_set.enabled_bits` stores the
reference to the other instance's set object itself — no new set is
allocated, so the new instance holds the same reference. -/
def initFromInstance (st : SetStore) (other : ℕ) : SetStore × ℕ :=
  (st, other)

/-- Embeds `GroupBitSet.add` acting on the heap: after the (inclusive-upper)
range check, `self.enabled_bits.add(bit)` mutates the referenced set object
in place. -/
def addInPlace (bitCount : ℕ) (st : SetStore) (r : ℕ) (bit : ℤ) :
    Except PyError SetStore :=
  if 0 ≤ bit ∧ bit ≤ (bitCount : ℤ) then
    .ok ⟨st.sets.set r (insert bit (readSet st r))⟩
  else .error .valueError

/-- Claim C9: constructing a `GroupBitSet` from another instance does NOT
produce an independent copy: the copy constructor returns an object holding
the very same `enabled_bits` reference (for every store and source object),
and concretely, with `A = GroupBitSet128({1})` and `B = GroupBitSet128(A)`,
calling `B.add(5)` makes `A.enabled_bits` read back as `{1, 5}`, no longer
`{1}`. -/
theorem groupBitSet_copy_aliases_code_bug :
    (∀ (st : SetStore) (r : ℕ), initFromInstance st r = (st, r))
    ∧ initFromInstance ⟨[({1} : Finset ℤ)]⟩ 0 = (⟨[({1} : Finset ℤ)]⟩, 0)
    ∧ addInPlace 128 ⟨[({1} : Finset ℤ)]⟩ 0 5 = .ok ⟨[({1, 5} : Finset ℤ)]⟩
    ∧ readSet ⟨[({1, 5} : Finset ℤ)]⟩ 0 = ({1, 5} : Finset ℤ)
    ∧ ({1, 5} : Finset ℤ) ≠ ({1} : Finset ℤ) := by
  refine ⟨fun _ _ => rfl, rfl, ?_, rfl, ?_⟩
  · have h15 : insert (5 : ℤ) ({1} : Finset ℤ) = ({1, 5} : Finset ℤ) :=
      Finset.pair_comm 5 1
    simp only [addInPlace, readSet]
    rw [if_pos (by decide)]
    simp [h15]
  · intro hcontra
    have h5 : (5 : ℤ) ∈ ({1} : Finset ℤ) := by
      rw [← hcontra]
      simp
    simp at h5

/-- Exact-arithmetic model of `soulstruct.utilities.maths.Vector3`
(component-wise rationals standing for the Python floats). -/
structure Vector3 where
  x : ℚ
  y : ℚ
  z : ℚ
deriving DecidableEq

instance : Add Vector3 :=
  ⟨fun a b => ⟨a.x + b.x, a.y + b.y, a.z + b.z⟩⟩

instance : Sub Vector3 :=
  ⟨fun a b => ⟨a.x - b.x, a.y - b.y, a.z - b.z⟩⟩

instance : Zero Vector3 :=
  ⟨⟨0, 0, 0⟩⟩

/-- Exact-arithmetic model of `soulstruct.utilities.maths.Matrix3`. -/
structure Matrix3 where
  xx : ℚ
  xy : ℚ
  xz : ℚ
  yx : ℚ
  yy : ℚ
  yz : ℚ
  zx : ℚ
  zy : ℚ
  zz : ℚ
deriving DecidableEq

instance : Mul Matrix3 :=
  ⟨fun a b =>
    ⟨a.xx * b.xx + a.xy * b.yx + a.xz * b.zx,
     a.xx * b.xy + a.xy * b.yy + a.xz * b.zy,
     a.xx * b.xz + a.xy * b.yz + a.xz * b.zz,
     a.yx * b.xx + a.yy * b.yx + a.yz * b.zx,
     a.yx * b.xy + a.yy * b.yy + a.yz * b.zy,
     a.yx * b.xz + a.yy * b.yz + a.yz * b.zz,
     a.zx * b.xx + a.zy * b.yx + a.zz * b.zx,
     a.zx * b.xy + a.zy * b.yy + a.zz * b.zy,
     a.zx * b.xz + a.zy * b.yz + a.zz * b.zz⟩⟩

instance : One Matrix3 :=
  ⟨⟨1, 0, 0, 0, 1, 0, 0, 0, 1⟩⟩

/-- `Matrix3.T` (transpose). -/
def Matrix3.transpose (m : Matrix3) : Matrix3 :=
  ⟨m.xx, m.yx, m.zx, m.xy, m.yy, m.zy, m.xz, m.yz, m.zz⟩

/-- `Matrix3 @ Vector3` (matrix-vector application). -/
def Matrix3.mulVec (m : Matrix3) (v : Vector3) : Vector3 :=
  ⟨m.xx * v.x + m.xy * v.y + m.xz * v.z,
   m.yx * v.x + m.yy * v.y + m.yz * v.z,
   m.zx * v.x + m.zy * v.y + m.zz * v.z⟩

theorem Matrix3.one_def : (1 : Matrix3) = ⟨1, 0, 0, 0, 1, 0, 0, 0, 1⟩ := rfl

theorem Vector3.zero_def : (0 : Vector3) = ⟨0, 0, 0⟩ := rfl

theorem Matrix3.mul_def (a b : Matrix3) :
    a * b =
      ⟨a.xx * b.xx + a.xy * b.yx + a.xz * b.zx,
       a.xx * b.xy + a.xy * b.yy + a.xz * b.zy,
       a.xx * b.xz + a.xy * b.yz + a.xz * b.zz,
       a.yx * b.xx + a.yy * b.yx + a.yz * b.zx,
       a.yx * b.xy + a.yy * b.yy + a.yz * b.zy,
       a.yx * b.xz + a.yy * b.yz + a.yz * b.zz,
       a.zx * b.xx + a.zy * b.yx + a.zz * b.zx,
       a.zx * b.xy + a.zy * b.yy + a.zz * b.zy,
       a.zx * b.xz + a.zy * b.yz + a.zz * b.zz⟩ := rfl

theorem Vector3.add_def (a b : Vector3) :
    a + b = ⟨a.x + b.x, a.y + b.y, a.z + b.z⟩ := rfl

theorem Vector3.sub_def (a b : Vector3) :
    a - b = ⟨a.x - b.x, a.y - b.y, a.z - b.z⟩ := rfl

theorem Matrix3.one_mul_m (m : Matrix3) : (1 : Matrix3) * m = m := by
  cases m
  rw [Matrix3.one_def, Matrix3.mul_def]
  norm_num

theorem Matrix3.one_mulVec (v : Vector3) : (1 : Matrix3).mulVec v = v := by
  cases v
  rw [Matrix3.one_def, Matrix3.mulVec]
  norm_num

theorem Matrix3.mulVec_zero (m : Matrix3) : m.mulVec (0 : Vector3) = 0 := by
  rw [Vector3.zero_def, Matrix3.mulVec]
  norm_num

theorem Vector3.add_zero_v (v : Vector3) : v + (0 : Vector3) = v := by
  cases v
  rw [Vector3.zero_def, Vector3.add_def]
  norm_num

theorem Vector3.sub_zero_v (v : Vector3) : v - (0 : Vector3) = v := by
  cases v
  rw [Vector3.zero_def, Vector3.sub_def]
  norm_num

theorem Vector3.zero_sub_zero : (0 : Vector3) - (0 : Vector3) = 0 :=
  Vector3.sub_zero_v 0

/-- A map that fixes every member of a list is the identity on it. -/
theorem map_eq_self_of {α : Type} (l : List α) (f : α → α)
    (h : ∀ a ∈ l, f a = a) : l.map f = l := by
  have h2 : ∀ a ∈ l, f a = id a := h
  rw [List.map_congr_left h2, List.map_id]

/-- Modelled from the spec: the Euler-angle/matrix conversion pair
`Matrix3.from_euler_angles` / `Matrix3.to_euler_angles` of
`soulstruct.utilities.maths` (not under `src/`). The spec fixes no concrete
Euler convention (its section 9 leaves the axis order and handedness open),
so the development is parametric in the pair; the `Bool` argument of
`fromEuler` is the `radians` unit flag ("degrees unless `radians=True`"). -/
structure MathKit where
  fromEuler : Bool → Vector3 → Matrix3
  toEuler : Matrix3 → Vector3

/-- The acceptable rotation arguments: an Euler rotation matrix, a 3-axis
Euler triple, or a single scalar meaning yaw-only rotation. -/
inductive RotationArg where
  | matrix (m : Matrix3)
  | euler (v : Vector3)
  | scalar (yaw : ℚ)

/-- Modelled from the spec: `resolve_rotation` of
`soulstruct.utilities.maths` (not under `src/`): converts the argument into
a rotation matrix; a scalar is yaw-only (`(0, y, 0)`); an Euler input is
interpreted in degrees unless `radians` is true; a matrix passes through
unchanged. -/
def resolve_rotation (kit : MathKit) (rot : RotationArg) (radians : Bool) : Matrix3 :=
  match rot with
  | .matrix m => m
  | .euler v => kit.fromEuler radians v
  | .scalar yw => kit.fromEuler radians ⟨0, yw, 0⟩

/-- A Part entry: `translate`/`rotate` plus the optional
`reflect_plane_height` attribute (present on collision/water-plane parts,
absent otherwise — the `hasattr` check of the source). -/
structure MSBPart where
  name : String
  translate : Vector3
  rotate : Vector3
  reflect_plane_height : Option ℚ
deriving DecidableEq

/-- A Region entry: `translate`/`rotate` only. -/
structure MSBRegion where
  name : String
  translate : Vector3
  rotate : Vector3
deriving DecidableEq

/-- The MSB collection restricted to what the batch transforms touch:
its Parts (`msb.get_parts()`) and Regions (`msb.get_regions()`). -/
structure MSB where
  parts : List MSBPart
  regions : List MSBRegion
deriving DecidableEq

/-- The selection filter of the batch transforms: an empty selection is the
"everything" sentinel, otherwise an entry is selected iff its (unique) name
was resolved into the selection (`if not selected_entries or entry in
selected_entries`). -/
def isSelectedPart (sel : List String) (p : MSBPart) : Bool :=
  sel.isEmpty || sel.contains p.name

def isSelectedRegion (sel : List String) (r : MSBRegion) : Bool :=
  sel.isEmpty || sel.contains r.name

/-- Embeds `rotate_part_or_region` (`utils.py` lines 252-269) on a Part:
`rotate = (R @ from_euler_angles(rotate)).to_euler_angles()` (the inner
conversion uses its default degree units) and
`translate = R @ (translate - pivot) + pivot`, with the pivot defaulting to
the world origin. -/
def rotatePartEntry (kit : MathKit) (rot : RotationArg) (pivot : Option Vector3)
    (radians : Bool) (p : MSBPart) : MSBPart :=
  let m := resolve_rotation kit rot radians
  let piv := pivot.getD 0
  { p with
    rotate := kit.toEuler (m * kit.fromEuler false p.rotate)
    translate := m.mulVec (p.translate - piv) + piv }

/-- Embeds `rotate_part_or_region` on a Region (same law). -/
def rotateRegionEntry (kit : MathKit) (rot : RotationArg) (pivot : Option Vector3)
    (radians : Bool) (r : MSBRegion) : MSBRegion :=
  let m := resolve_rotation kit rot radians
  let piv := pivot.getD 0
  { r with
    rotate := kit.toEuler (m * kit.fromEuler false r.rotate)
    translate := m.mulVec (r.translate - piv) + piv }

/-- Embeds `rotate_all_in_world` (`utils.py` lines 272-301). Note line 293
of the source: `rotation_m = resolve_rotation(rotation)` — the `radians`
flag is NOT forwarded there, so a non-matrix rotation argument is always
resolved with the degree default; the already-resolved matrix is then passed
on to `rotate_part_or_region` together with the (now inert) flag. -/
def rotate_all_in_world (kit : MathKit) (msb : MSB) (rot : RotationArg)
    (pivot : Option Vector3) (radians : Bool) (sel : List String) : MSB :=
  let rotation_m := resolve_rotation kit rot false
  let piv := pivot.getD 0
  { parts := msb.parts.map (fun p =>
      if isSelectedPart sel p then
        rotatePartEntry kit (.matrix rotation_m) (some piv) radians p
      else p),
    regions := msb.regions.map (fun r =>
      if isSelectedRegion sel r then
        rotateRegionEntry kit (.matrix rotation_m) (some piv) radians r
      else r) }

/-- The loop body of `translate_all` on one selected Part
(`utils.py` lines 319-321): `part.translate += translate` and, when the
attribute is present, `part.reflect_plane_height += translate.y`. -/
def translatePartUpd (t : Vector3) (p : MSBPart) : MSBPart :=
  { p with
    translate := p.translate + t
    reflect_plane_height := p.reflect_plane_height.map (fun h0 => h0 + t.y) }

/-- The loop body of `translate_all` on one selected Region
(`utils.py` line 324): `region.translate += translate`. -/
def translateRegionUpd (t : Vector3) (r : MSBRegion) : MSBRegion :=
  { r with translate := r.translate + t }

/-- Embeds `translate_all` (`utils.py` lines 304-325): adds the delta to
every selected Part's and Region's `translate`, and adds `delta.y` to
`reflect_plane_height` for any selected Part carrying that attribute. -/
def translate_all (msb : MSB) (t : Vector3) (sel : List String) : MSB :=
  { parts := msb.parts.map (fun p =>
      if isSelectedPart sel p then translatePartUpd t p else p),
    regions := msb.regions.map (fun r =>
      if isSelectedRegion sel r then translateRegionUpd t r else r) }

/-- Embeds `move_map` (`utils.py` lines 208-249): unspecified reference
frames default to zero vectors, the world rotation is
`from_euler_angles(end_rotate) @ from_euler_angles(start_rotate).T`, the
world translation is `end_translate - Rw @ start_translate`, and the map is
rotated about the world origin first, then translated. -/
def move_map (kit : MathKit) (msb : MSB)
    (start_translate end_translate start_rotate end_rotate : Option Vector3)
    (sel : List String) : MSB :=
  let st := start_translate.getD 0
  let et := end_translate.getD 0
  let sr := start_rotate.getD 0
  let er := end_rotate.getD 0
  let m_world := kit.fromEuler false er * (kit.fromEuler false sr).transpose
  let translation := et - m_world.mulVec st
  translate_all (rotate_all_in_world kit msb (.matrix m_world) none false sel)
    translation sel

/-- Claim C5: `translate_all` adds the delta to every selected Part's and
Region's `translate`, additionally adds `delta.y` to the
`reflect_plane_height` of every selected Part exposing it, and changes
nothing else: names and rotations are untouched, and an entry not selected
by a non-empty selection is returned exactly unchanged. -/
theorem translate_all_spec (msb : MSB) (d : Vector3) (sel : List String) :
    ((translate_all msb d sel).parts.length = msb.parts.length)
    ∧ ((translate_all msb d sel).regions.length = msb.regions.length)
    ∧ (∀ i (hi : i < msb.parts.length)
        (hj : i < (translate_all msb d sel).parts.length),
        (isSelectedPart sel (msb.parts.get ⟨i, hi⟩) = true →
          ((translate_all msb d sel).parts.get ⟨i, hj⟩).translate
              = (msb.parts.get ⟨i, hi⟩).translate + d
          ∧ ((translate_all msb d sel).parts.get ⟨i, hj⟩).reflect_plane_height
              = (msb.parts.get ⟨i, hi⟩).reflect_plane_height.map (fun h0 => h0 + d.y)
          ∧ ((translate_all msb d sel).parts.get ⟨i, hj⟩).rotate
              = (msb.parts.get ⟨i, hi⟩).rotate
          ∧ ((translate_all msb d sel).parts.get ⟨i, hj⟩).name
              = (msb.parts.get ⟨i, hi⟩).name)
        ∧ (isSelectedPart sel (msb.parts.get ⟨i, hi⟩) = false →
          (translate_all msb d sel).parts.get ⟨i, hj⟩ = msb.parts.get ⟨i, hi⟩))
    ∧ (∀ i (hi : i < msb.regions.length)
        (hj : i < (translate_all msb d sel).regions.length),
        (isSelectedRegion sel (msb.regions.get ⟨i, hi⟩) = true →
          ((translate_all msb d sel).regions.get ⟨i, hj⟩).translate
              = (msb.regions.get ⟨i, hi⟩).translate + d
          ∧ ((translate_all msb d sel).regions.get ⟨i, hj⟩).rotate
              = (msb.regions.get ⟨i, hi⟩).rotate
          ∧ ((translate_all msb d sel).regions.get ⟨i, hj⟩).name
              = (msb.regions.get ⟨i, hi⟩).name)
        ∧ (isSelectedRegion sel (msb.regions.get ⟨i, hi⟩) = false →
          (translate_all msb d sel).regions.get ⟨i, hj⟩
            = msb.regions.get ⟨i, hi⟩)) := by
  refine ⟨by simp [translate_all], by simp [translate_all], ?_, ?_⟩
  · intro i hi hj
    have hg : (translate_all msb d sel).parts.get ⟨i, hj⟩
        = (if isSelectedPart sel (msb.parts.get ⟨i, hi⟩) then
            translatePartUpd d (msb.parts.get ⟨i, hi⟩)
          else msb.parts.get ⟨i, hi⟩) := by
      simp [translate_all, List.get_eq_getElem, List.getElem_map]
    constructor
    · intro hsel
      rw [hg, if_pos hsel]
      exact ⟨rfl, rfl, rfl, rfl⟩
    · intro hsel
      rw [hg, if_neg (by rw [hsel]; decide)]
  · intro i hi hj
    have hg : (translate_all msb d sel).regions.get ⟨i, hj⟩
        = (if isSelectedRegion sel (msb.regions.get ⟨i, hi⟩) then
            translateRegionUpd d (msb.regions.get ⟨i, hi⟩)
          else msb.regions.get ⟨i, hi⟩) := by
      simp [translate_all, List.get_eq_getElem, List.getElem_map]
    constructor
    · intro hsel
      rw [hg, if_pos hsel]
      exact ⟨rfl, rfl, rfl⟩
    · intro hsel
      rw [hg, if_neg (by rw [hsel]; decide)]

/-- Witness for C5: entries A (selected, with a reflect plane) and B (not
selected) under `translate_all` with delta `(10, 20, 30)` and selection
`["A"]`: A's translate gains the delta and its plane height gains `20`,
while B is exactly unchanged. -/
theorem translate_all_spec_witness :
    isSelectedPart ["A"] ⟨"A", ⟨1, 2, 3⟩, ⟨0, 0, 0⟩, some 5⟩ = true
    ∧ ((translate_all
          ⟨[⟨"A", ⟨1, 2, 3⟩, ⟨0, 0, 0⟩, some 5⟩, ⟨"B", ⟨7, 8, 9⟩, ⟨1, 1, 1⟩, none⟩],
            []⟩
          ⟨10, 20, 30⟩ ["A"]).parts.get ⟨0, by decide⟩).translate
        = ⟨1, 2, 3⟩ + (⟨10, 20, 30⟩ : Vector3)
    ∧ ((translate_all
          ⟨[⟨"A", ⟨1, 2, 3⟩, ⟨0, 0, 0⟩, some 5⟩, ⟨"B", ⟨7, 8, 9⟩, ⟨1, 1, 1⟩, none⟩],
            []⟩
          ⟨10, 20, 30⟩ ["A"]).parts.get ⟨1, by decide⟩)
        = ⟨"B", ⟨7, 8, 9⟩, ⟨1, 1, 1⟩, none⟩ := by
  have h := translate_all_spec
    ⟨[⟨"A", ⟨1, 2, 3⟩, ⟨0, 0, 0⟩, some 5⟩, ⟨"B", ⟨7, 8, 9⟩, ⟨1, 1, 1⟩, none⟩], []⟩
    ⟨10, 20, 30⟩ ["A"]
  exact ⟨by decide, ((h.2.2.1 0 (by decide) (by decide)).1 (by decide)).1,
    (h.2.2.1 1 (by decide) (by decide)).2 (by decide)⟩

/-- Claim C10: the `radians` flag of `rotate_all_in_world` has no effect at
all, because line 293 of the source resolves the rotation argument without
forwarding the flag (so Euler/scalar inputs are always interpreted with the
degree default) and the per-entry calls then receive an already-resolved
matrix, for which the forwarded flag is inert. This contradicts the claim
(and the function's own docstring) that the rotation is interpreted in
radians when `radians=True`. -/
theorem rotate_all_in_world_radians_flag_dead (kit : MathKit) (msb : MSB)
    (rot : RotationArg) (pivot : Option Vector3) (sel : List String) :
    rotate_all_in_world kit msb rot pivot true sel
      = rotate_all_in_world kit msb rot pivot false sel := rfl

/-- A Part is fixed by a rotation by the identity matrix about the origin,
provided the Euler conversion pair is inverse at its orientation. -/
theorem rotatePartEntry_one (kit : MathKit) (p : MSBPart)
    (h : kit.toEuler (kit.fromEuler false p.rotate) = p.rotate) :
    rotatePartEntry kit (.matrix 1) (some 0) false p = p := by
  simp only [rotatePartEntry, resolve_rotation, Option.getD_some]
  rw [Matrix3.one_mul_m, h, Vector3.sub_zero_v, Matrix3.one_mulVec,
    Vector3.add_zero_v]

/-- A Region is fixed by a rotation by the identity matrix about the origin,
provided the Euler conversion pair is inverse at its orientation. -/
theorem rotateRegionEntry_one (kit : MathKit) (r : MSBRegion)
    (h : kit.toEuler (kit.fromEuler false r.rotate) = r.rotate) :
    rotateRegionEntry kit (.matrix 1) (some 0) false r = r := by
  simp only [rotateRegionEntry, resolve_rotation, Option.getD_some]
  rw [Matrix3.one_mul_m, h, Vector3.sub_zero_v, Matrix3.one_mulVec,
    Vector3.add_zero_v]

/-- Rotating by the identity matrix about the default (origin) pivot leaves
the whole collection unchanged, given the inverse property at each entry. -/
theorem rotate_all_in_world_one (kit : MathKit) (msb : MSB) (sel : List String)
    (hp : ∀ p ∈ msb.parts, kit.toEuler (kit.fromEuler false p.rotate) = p.rotate)
    (hr : ∀ r ∈ msb.regions, kit.toEuler (kit.fromEuler false r.rotate) = r.rotate) :
    rotate_all_in_world kit msb (.matrix 1) none false sel = msb := by
  cases msb with
  | mk ps rs =>
    simp only [rotate_all_in_world, resolve_rotation, Option.getD_none, MSB.mk.injEq]
    constructor
    · refine map_eq_self_of _ _ ?_
      intro p hmem
      split
      · exact rotatePartEntry_one kit p (hp p hmem)
      · rfl
    · refine map_eq_self_of _ _ ?_
      intro r hmem
      split
      · exact rotateRegionEntry_one kit r (hr r hmem)
      · rfl

/-- Translating by the zero vector leaves a Part unchanged. -/
theorem translatePartUpd_zero (p : MSBPart) : translatePartUpd 0 p = p := by
  simp only [translatePartUpd, Vector3.add_zero_v]
  have hfun : (fun h0 : ℚ => h0 + (0 : Vector3).y) = id := funext fun h0 => add_zero h0
  rw [hfun, Option.map_id]
  rfl

/-- Translating by the zero vector leaves a Region unchanged. -/
theorem translateRegionUpd_zero (r : MSBRegion) : translateRegionUpd 0 r = r := by
  simp only [translateRegionUpd, Vector3.add_zero_v]

/-- Translating the whole collection by the zero vector changes nothing. -/
theorem translate_all_zero (msb : MSB) (sel : List String) :
    translate_all msb 0 sel = msb := by
  cases msb with
  | mk ps rs =>
    simp only [translate_all, MSB.mk.injEq]
    constructor
    · refine map_eq_self_of _ _ ?_
      intro p _
      split
      · exact translatePartUpd_zero p
      · rfl
    · refine map_eq_self_of _ _ ?_
      intro r _
      split
      · exact translateRegionUpd_zero r
      · rfl

/-- Claim C4: `move_map` computes the world rotation
`Rw = fromEuler(end_rotate) * fromEuler(start_rotate)ᵀ` and world
translation `T = end_translate - Rw @ start_translate` (absent frames
defaulting to zero), and applies `Rw` through `rotate_all_in_world` with
origin pivot followed by `translate_all` with `T`, in exactly that order;
in particular with all four frames zero (and the conversion pair inverse at
the entries' orientations, with an orthogonal matrix at zero), every
selected Part and Region keeps its translate and rotate exactly. -/
theorem move_map_spec (kit : MathKit) (msb : MSB) (sel : List String)
    (h1 : kit.fromEuler false 0 * (kit.fromEuler false 0).transpose = 1)
    (hp : ∀ p ∈ msb.parts, kit.toEuler (kit.fromEuler false p.rotate) = p.rotate)
    (hr : ∀ r ∈ msb.regions, kit.toEuler (kit.fromEuler false r.rotate) = r.rotate) :
    (∀ st et sr er,
      move_map kit msb st et sr er sel =
        translate_all
          (rotate_all_in_world kit msb
            (.matrix (kit.fromEuler false (er.getD 0)
              * (kit.fromEuler false (sr.getD 0)).transpose))
            none false sel)
          ((et.getD 0)
            - (kit.fromEuler false (er.getD 0)
              * (kit.fromEuler false (sr.getD 0)).transpose).mulVec (st.getD 0))
          sel)
    ∧ move_map kit msb none none none none sel = msb := by
  constructor
  · intro st et sr er
    rfl
  · have e1 : move_map kit msb none none none none sel
        = translate_all
            (rotate_all_in_world kit msb
              (.matrix (kit.fromEuler false 0
                * (kit.fromEuler false 0).transpose)) none false sel)
            ((0 : Vector3)
              - (kit.fromEuler false 0
                * (kit.fromEuler false 0).transpose).mulVec 0) sel := rfl
    rw [e1, h1, Matrix3.mulVec_zero, Vector3.zero_sub_zero,
      rotate_all_in_world_one kit msb sel hp hr, translate_all_zero]

/-- Witness for C4: a kit whose conversions are identically trivial, on a
collection whose entries all have zero orientation. -/
theorem move_map_spec_witness :
    ((⟨fun _ _ => 1, fun _ => 0⟩ : MathKit).fromEuler false 0
        * ((⟨fun _ _ => 1, fun _ => 0⟩ : MathKit).fromEuler false 0).transpose = 1)
    ∧ move_map ⟨fun _ _ => 1, fun _ => 0⟩
        ⟨[⟨"p", ⟨1, 2, 3⟩, 0, some 5⟩], [⟨"r", ⟨4, 5, 6⟩, 0⟩]⟩
        none none none none []
      = ⟨[⟨"p", ⟨1, 2, 3⟩, 0, some 5⟩], [⟨"r", ⟨4, 5, 6⟩, 0⟩]⟩ := by
  have hone : ((⟨fun _ _ => 1, fun _ => 0⟩ : MathKit).fromEuler false 0
      * ((⟨fun _ _ => 1, fun _ => 0⟩ : MathKit).fromEuler false 0).transpose
        = (1 : Matrix3)) := by
    show (1 : Matrix3) * (1 : Matrix3).transpose = 1
    rw [show (1 : Matrix3).transpose = 1 from rfl, Matrix3.one_mul_m]
  refine ⟨hone, (move_map_spec ⟨fun _ _ => 1, fun _ => 0⟩
    ⟨[⟨"p", ⟨1, 2, 3⟩, 0, some 5⟩], [⟨"r", ⟨4, 5, 6⟩, 0⟩]⟩ [] hone ?_ ?_).2⟩
  · intro p hmem
    simp only [List.mem_singleton] at hmem
    rw [hmem]
  · intro r hmem
    simp only [List.mem_singleton] at hmem
    rw [hmem]

/-- An entry as seen by `merge`: only its name participates in collision
detection; the per-subtype payloads are otherwise opaque. -/
structure MergeEntry where
  name : String
deriving DecidableEq

/-- An MSB as seen by `merge`: its dataclass fields, i.e. an ordered list of
(subtype field name, entry list) pairs. -/
structure MergeMSB where
  subtypes : List (String × List MergeEntry)
deriving DecidableEq

/-- The MSB dataclass field names, in declaration order
(`[f.name for f in fields(msb)]`). -/
def field_names (m : MergeMSB) : List String :=
  m.subtypes.map Prod.fst

/-- `getattr(msb, subtype_name)`: the entry list stored under a subtype
field name. -/
def getSubtype (m : MergeMSB) (n : String) : List MergeEntry :=
  ((m.subtypes.find? (fun p => p.1 == n)).map Prod.snd).getD []

/-- Modelled from the spec: `MSBEntryList.get_filtered_list` (not under
`src/`): entries satisfying the predicate, or all entries when no predicate
is given; returns a fresh (deep-copied) list and never mutates the source. -/
def get_filtered_list (filt : Option (MergeEntry → Bool))
    (l : List MergeEntry) : List MergeEntry :=
  match filt with
  | none => l
  | some f => l.filter f

/-- Modelled from the spec: `MSBEntryList.get_entry_names` (not under
`src/`): the entry names in list order. -/
def get_entry_names (l : List MergeEntry) : List String :=
  l.map MergeEntry.name

inductive MergeError where
  | schemaMismatch
  | nameCollision
deriving DecidableEq, Repr

/-- The per-subtype loop of `merge` (`utils.py` lines 176-189), iterating
over `msb_1`'s field names: filter both sides, detect repeated names, raise
on a collision unless `allow_repeated_names`, and otherwise accumulate the
concatenation of the two filtered lists under that field name. -/
def mergeLoop (m1 m2 : MergeMSB) (filt : Option (MergeEntry → Bool))
    (allowRep : Bool) : List String → Except MergeError (List (String × List MergeEntry))
  | [] => .ok []
  | n :: rest =>
    let l1 := get_filtered_list filt (getSubtype m1 n)
    let l2 := get_filtered_list filt (getSubtype m2 n)
    let repeated := (get_entry_names l1).inter (get_entry_names l2)
    if repeated ≠ [] ∧ allowRep = false then .error .nameCollision
    else
      match mergeLoop m1 m2 filt allowRep rest with
      | .error e => .error e
      | .ok tail => .ok ((n, l1 ++ l2) :: tail)

/-- Embeds `merge` (`utils.py` lines 154-192): rejects MSBs with different
field-name lists, then builds a brand-new MSB from the per-subtype merged
lists; a name collision (with `allow_repeated_names=False`) aborts the
whole merge with a `ValueError` and no result. -/
def merge (m1 m2 : MergeMSB) (filt : Option (MergeEntry → Bool))
    (allowRep : Bool) : Except MergeError MergeMSB :=
  if field_names m1 ≠ field_names m2 then .error .schemaMismatch
  else
    match mergeLoop m1 m2 filt allowRep (field_names m1) with
    | .error e => .error e
    | .ok lists => .ok ⟨lists⟩

/-- If some subtype in the iteration list has a name collision between the
two filtered sides, the loop aborts with the collision error. -/
theorem mergeLoop_collision (m1 m2 : MergeMSB) (filt : Option (MergeEntry → Bool)) :
    ∀ ns : List String,
      (∃ n ∈ ns,
        (get_entry_names (get_filtered_list filt (getSubtype m1 n))).inter
          (get_entry_names (get_filtered_list filt (getSubtype m2 n))) ≠ []) →
      mergeLoop m1 m2 filt false ns = .error .nameCollision := by
  intro ns
  induction ns with
  | nil => rintro ⟨n, hn, _⟩; cases hn
  | cons n rest ih =>
    rintro ⟨n0, hn0, hcol⟩
    show mergeLoop m1 m2 filt false (n :: rest) = .error .nameCollision
    rcases List.mem_cons.mp hn0 with h | h
    · subst h
      rw [mergeLoop, if_pos ⟨hcol, rfl⟩]
    · rw [mergeLoop]
      split
      · rfl
      · rw [ih ⟨n0, h, hcol⟩]

/-- If every subtype in the iteration list is collision-free, the loop
succeeds with the concatenated filtered lists, in order. -/
theorem mergeLoop_disjoint (m1 m2 : MergeMSB) (filt : Option (MergeEntry → Bool))
    (allowRep : Bool) :
    ∀ ns : List String,
      (∀ n ∈ ns,
        (get_entry_names (get_filtered_list filt (getSubtype m1 n))).inter
          (get_entry_names (get_filtered_list filt (getSubtype m2 n))) = []) →
      mergeLoop m1 m2 filt allowRep ns
        = .ok (ns.map (fun n =>
            (n, get_filtered_list filt (getSubtype m1 n)
              ++ get_filtered_list filt (getSubtype m2 n)))) := by
  intro ns
  induction ns with
  | nil => intro _; rfl
  | cons n rest ih =>
    intro hd
    have hn := hd n (List.mem_cons_self n rest)
    have hrest : ∀ x ∈ rest,
        (get_entry_names (get_filtered_list filt (getSubtype m1 x))).inter
          (get_entry_names (get_filtered_list filt (getSubtype m2 x))) = [] :=
      fun x hx => hd x (List.mem_cons_of_mem n hx)
    rw [mergeLoop, if_neg (by simp [hn]), ih hrest]
    rfl

/-- Claim C6: with `allow_repeated_names=False`, schema-compatible inputs,
and a name occurring in both sides' filtered lists for some subtype, `merge`
fails with the name-collision error and produces no (partial) result; the
inputs, being values of a pure function, are left untouched. -/
theorem merge_name_collision (m1 m2 : MergeMSB) (filt : Option (MergeEntry → Bool))
    (hs : field_names m1 = field_names m2)
    (hc : ∃ n ∈ field_names m1,
      (get_entry_names (get_filtered_list filt (getSubtype m1 n))).inter
        (get_entry_names (get_filtered_list filt (getSubtype m2 n))) ≠ []) :
    merge m1 m2 filt false = .error .nameCollision := by
  rw [merge, if_neg (by simp [hs]), mergeLoop_collision m1 m2 filt _ hc]

/-- Witness for C6: two one-subtype MSBs both containing an entry named
`"X"` under the field `"parts"`. -/
theorem merge_name_collision_witness :
    (field_names ⟨[("parts", [⟨"X"⟩, ⟨"A"⟩])]⟩
        = field_names ⟨[("parts", [⟨"X"⟩, ⟨"B"⟩])]⟩)
    ∧ (∃ n ∈ field_names (⟨[("parts", [⟨"X"⟩, ⟨"A"⟩])]⟩ : MergeMSB),
        (get_entry_names (get_filtered_list none
            (getSubtype ⟨[("parts", [⟨"X"⟩, ⟨"A"⟩])]⟩ n))).inter
          (get_entry_names (get_filtered_list none
            (getSubtype ⟨[("parts", [⟨"X"⟩, ⟨"B"⟩])]⟩ n))) ≠ [])
    ∧ merge ⟨[("parts", [⟨"X"⟩, ⟨"A"⟩])]⟩ ⟨[("parts", [⟨"X"⟩, ⟨"B"⟩])]⟩ none false
        = .error .nameCollision := by
  refine ⟨by decide, by decide, ?_⟩
  exact merge_name_collision _ _ none (by decide) (by decide)

/-- Claim C7: for schema-compatible inputs whose filtered entry names are
disjoint in every subtype, `merge` never raises and returns a brand-new
collection whose per-subtype lists are the concatenations of the two
filtered sides — so each subtype's entry count is the sum of the two
inputs' (post-filter) counts. -/
theorem merge_disjoint_names (m1 m2 : MergeMSB) (filt : Option (MergeEntry → Bool))
    (allowRep : Bool)
    (hs : field_names m1 = field_names m2)
    (hd : ∀ n ∈ field_names m1,
      (get_entry_names (get_filtered_list filt (getSubtype m1 n))).inter
        (get_entry_names (get_filtered_list filt (getSubtype m2 n))) = []) :
    merge m1 m2 filt allowRep
      = .ok ⟨(field_names m1).map (fun n =>
          (n, get_filtered_list filt (getSubtype m1 n)
            ++ get_filtered_list filt (getSubtype m2 n)))⟩
    ∧ ∀ n ∈ field_names m1,
        (get_filtered_list filt (getSubtype m1 n)
          ++ get_filtered_list filt (getSubtype m2 n)).length
          = (get_filtered_list filt (getSubtype m1 n)).length
            + (get_filtered_list filt (getSubtype m2 n)).length := by
  constructor
  · rw [merge, if_neg (by simp [hs]), mergeLoop_disjoint m1 m2 filt allowRep _ hd]
  · intro n _
    exact List.length_append _ _

/-- Witness for C7: disjoint-name inputs over two subtypes merge into the
concatenated lists with summed counts. -/
theorem merge_disjoint_names_witness :
    (field_names ⟨[("parts", [⟨"A"⟩]), ("regions", [⟨"R"⟩, ⟨"S"⟩])]⟩
        = field_names ⟨[("parts", [⟨"B"⟩, ⟨"C"⟩]), ("regions", [])]⟩)
    ∧ (∀ n ∈ field_names (⟨[("parts", [⟨"A"⟩]), ("regions", [⟨"R"⟩, ⟨"S"⟩])]⟩ : MergeMSB),
        (get_entry_names (get_filtered_list none
            (getSubtype ⟨[("parts", [⟨"A"⟩]), ("regions", [⟨"R"⟩, ⟨"S"⟩])]⟩ n))).inter
          (get_entry_names (get_filtered_list none
            (getSubtype ⟨[("parts", [⟨"B"⟩, ⟨"C"⟩]), ("regions", [])]⟩ n))) = [])
    ∧ merge ⟨[("parts", [⟨"A"⟩]), ("regions", [⟨"R"⟩, ⟨"S"⟩])]⟩
        ⟨[("parts", [⟨"B"⟩, ⟨"C"⟩]), ("regions", [])]⟩ none false
        = .ok ⟨[("parts", [⟨"A"⟩, ⟨"B"⟩, ⟨"C"⟩]), ("regions", [⟨"R"⟩, ⟨"S"⟩])]⟩ := by
  refine ⟨by decide, by decide, ?_⟩
  have h := merge_disjoint_names ⟨[("parts", [⟨"A"⟩]), ("regions", [⟨"R"⟩, ⟨"S"⟩])]⟩
    ⟨[("parts", [⟨"B"⟩, ⟨"C"⟩]), ("regions", [])]⟩ none false (by decide) (by decide)
  rw [h.1]
  decide

/-- The character class `[\d, ]` of the `_REPR_RE` patterns
(`utils.py` lines 145 and 151): digits, comma, space. -/
def isAllowedChar (c : Char) : Bool :=
  c.isDigit || c == ',' || c == ' '

/-- Embeds `cls._REPR_RE.match(repr_string)` for the anchored pattern
`^TypeName(\([\d, ]*\))$` (`utils.py` lines 98, 145, 151): the input must be
the type name, then `(`, then digits/commas/spaces only, then `)` at the
very end (`$` modelled as end of string); returns the characters between
the parentheses. -/
def matchReprInner (typeName s : List Char) : Option (List Char) :=
  if typeName.isPrefixOf s then
    let r := s.drop typeName.length
    if r.head? == some '(' && r.getLast? == some ')' && 2 ≤ r.length
        && ((r.drop 1).dropLast.all isAllowedChar) then
      some ((r.drop 1).dropLast)
    else none
  else none

/-- The ASCII digit character for `n < 10`. -/
def digitChar (n : ℕ) : Char :=
  Char.ofNat (48 + n)

/-- Fuel-driven most-significant-first decimal rendering (the fuel is a
strict upper bound on the number being rendered). -/
def natDigitsGo : ℕ → ℕ → List Char → List Char
  | 0, _, acc => acc
  | fuel + 1, n, acc =>
    if n < 10 then digitChar n :: acc
    else natDigitsGo fuel (n / 10) (digitChar (n % 10) :: acc)

/-- Decimal rendering of a natural number (Python `str(n)` for `n >= 0`). -/
def natToDigits (n : ℕ) : List Char :=
  natDigitsGo (n + 1) n []

/-- Python `str(i)` for an arbitrary integer. -/
def intToChars (i : ℤ) : List Char :=
  if i < 0 then '-' :: natToDigits (-i).toNat else natToDigits i.toNat

/-- Value of a most-significant-first digit string (accumulator form). -/
def digitsVal : List Char → ℕ → ℕ
  | [], acc => acc
  | c :: cs, acc => digitsVal cs (acc * 10 + (c.toNat - 48))

/-- Strip leading and trailing spaces (the only whitespace admitted by the
regex character class). -/
def trimSpaces (cs : List Char) : List Char :=
  ((cs.dropWhile (fun c => c == ' ')).reverse.dropWhile (fun c => c == ' ')).reverse

/-- Python's decimal integer literal: nonempty, all digits, and no leading
zero (except the literal `0` itself); evaluates to its value. -/
def parseDigitsStrict (cs : List Char) : Option ℕ :=
  if cs ≠ [] ∧ cs.all Char.isDigit = true ∧ (cs = ['0'] ∨ cs.head? ≠ some '0')
  then some (digitsVal cs 0) else none

/-- One tuple element as `ast.literal_eval` sees it: spaces around a decimal
literal. -/
def parsePiece (cs : List Char) : Option ℕ :=
  parseDigitsStrict (trimSpaces cs)

/-- Split a character list on commas (`n` commas yield `n + 1` pieces). -/
def splitOnComma : List Char → List (List Char)
  | [] => [[]]
  | c :: rest =>
    if c = ',' then [] :: splitOnComma rest
    else
      match splitOnComma rest with
      | [] => [[c]]
      | p :: ps => (c :: p) :: ps

/-- Parse every piece, failing if any piece fails. -/
def parsePieces : List (List Char) → Option (List ℕ)
  | [] => some []
  | p :: ps =>
    match parsePiece p, parsePieces ps with
    | some n, some ns => some (n :: ns)
    | _, _ => none

/-- Embeds `ast.literal_eval` on the parenthesised group restricted to the
regex alphabet (`utils.py` line 100): zero commas give either the empty
tuple (all-space middle) or a bare integer — which line 102 then wraps into
a one-element tuple; with commas, one optional trailing comma is allowed
(`(5,)`), every piece must be a decimal literal, and anything else (such as
`(,)` or `(5,,6)`) is a syntax error. -/
def parseMiddle (cs : List Char) : Option (List ℕ) :=
  let ps := splitOnComma cs
  if ps.length = 1 then
    if trimSpaces ps.headI = [] then some []
    else (parsePiece ps.headI).map (fun n => [n])
  else
    parsePieces (if trimSpaces (ps.getLast?.getD []) = [] then ps.dropLast else ps)

/-- Embeds `GroupBitSet.from_repr` (`utils.py` lines 95-103): regex
mismatch raises `ValueError`; the matched group is evaluated as a tuple (a
bare integer standing for a one-element tuple); the resulting set is passed
to the `set` branch of `__init__`. -/
def from_repr (typeName : List Char) (bitCount : ℕ) (s : List Char) :
    Except PyError (Finset ℤ) :=
  (matchReprInner typeName s).elim (.error .valueError) (fun mid =>
    (parseMiddle mid).elim (.error .syntaxError) (fun ns =>
      ofBitSet bitCount ((ns.map Int.ofNat).toFinset)))

/-- Join pieces with the separator `", "` of `__repr__`
(`utils.py` line 118). -/
def sepJoin : List (List Char) → List Char
  | [] => []
  | [p] => p
  | p :: ps => p ++ ',' :: ' ' :: sepJoin ps

/-- Embeds `GroupBitSet.__repr__` (`utils.py` lines 116-119):
`TypeName(b0, b1, ...)` with the enabled bits sorted ascending. -/
def reprChars (typeName : List Char) (s : Finset ℤ) : List Char :=
  typeName ++ '(' :: (sepJoin ((s.sort (· ≤ ·)).map intToChars) ++ [')'])

/-- The class name prefix of `GroupBitSet128`'s repr pattern. -/
def gbs128TypeName : List Char :=
  "GroupBitSet128".toList

theorem digitChar_isDigit (d : ℕ) (hd : d < 10) : (digitChar d).isDigit = true := by
  interval_cases d <;> decide

theorem digitChar_toNat (d : ℕ) (hd : d < 10) : (digitChar d).toNat = 48 + d := by
  interval_cases d <;> decide

theorem digitChar_ne_zero (d : ℕ) (h0 : 0 < d) (hd : d < 10) : digitChar d ≠ '0' := by
  interval_cases d <;> decide

theorem isDigit_ne_comma (c : Char) (h : c.isDigit = true) : ¬c = ',' := by
  intro e
  subst e
  exact absurd h (by decide)

theorem isDigit_ne_space (c : Char) (h : c.isDigit = true) : (c == ' ') = false := by
  cases e : (c == ' ')
  · rfl
  · have : c = ' ' := by
      have := eq_of_beq e
      exact this
    subst this
    exact absurd h (by decide)

theorem natDigitsGo_fuel (n : ℕ) : ∀ f1 f2 acc, n < f1 → n < f2 →
    natDigitsGo f1 n acc = natDigitsGo f2 n acc := by
  induction n using Nat.strong_induction_on with
  | _ n ih =>
    intro f1 f2 acc h1 h2
    match f1, f2 with
    | g1 + 1, g2 + 1 =>
      by_cases hn : n < 10
      · simp [natDigitsGo, hn]
      · simp only [natDigitsGo, if_neg hn]
        exact ih (n / 10) (by omega) g1 g2 _ (by omega) (by omega)

theorem natDigitsGo_acc (n : ℕ) : ∀ f acc, n < f →
    natDigitsGo f n acc = natToDigits n ++ acc := by
  induction n using Nat.strong_induction_on with
  | _ n ih =>
    intro f acc hf
    match f with
    | g + 1 =>
      by_cases hn : n < 10
      · simp [natDigitsGo, hn, natToDigits]
      · simp only [natDigitsGo, if_neg hn]
        rw [ih (n / 10) (by omega) g _ (by omega)]
        have hR : natToDigits n
            = natToDigits (n / 10) ++ [digitChar (n % 10)] := by
          rw [natToDigits]
          simp only [natDigitsGo, if_neg hn]
          exact ih (n / 10) (by omega) n _ (by omega)
        rw [hR, List.append_assoc]
        rfl

/-- Decimal rendering recurrence for `n ≥ 10`. -/
theorem natToDigits_step (n : ℕ) (hn : ¬n < 10) :
    natToDigits n = natToDigits (n / 10) ++ [digitChar (n % 10)] := by
  rw [natToDigits]
  simp only [natDigitsGo, if_neg hn]
  exact natDigitsGo_acc (n / 10) n _ (by omega)

theorem natToDigits_base (n : ℕ) (hn : n < 10) : natToDigits n = [digitChar n] := by
  simp [natToDigits, natDigitsGo, hn]

theorem natToDigits_ne_nil (n : ℕ) : natToDigits n ≠ [] := by
  by_cases hn : n < 10
  · rw [natToDigits_base n hn]
    exact List.cons_ne_nil _ _
  · rw [natToDigits_step n hn]
    simp

theorem natToDigits_all_digits (n : ℕ) :
    (natToDigits n).all Char.isDigit = true := by
  induction n using Nat.strong_induction_on with
  | _ n ih =>
    by_cases hn : n < 10
    · rw [natToDigits_base n hn]
      simp [digitChar_isDigit n hn]
    · rw [natToDigits_step n hn]
      rw [List.all_append]
      refine Bool.and_eq_true_iff.mpr ⟨ih (n / 10) (by omega), ?_⟩
      simp [digitChar_isDigit (n % 10) (by omega)]

theorem natToDigits_head (n : ℕ) (h : n ≠ 0) :
    (natToDigits n).head? ≠ some '0' := by
  induction n using Nat.strong_induction_on with
  | _ n ih =>
    by_cases hn : n < 10
    · rw [natToDigits_base n hn]
      simp only [List.head?_cons, ne_eq, Option.some.injEq]
      exact digitChar_ne_zero n (by omega) hn
    · rw [natToDigits_step n hn]
      obtain ⟨c, cs, e⟩ := List.exists_cons_of_ne_nil (natToDigits_ne_nil (n / 10))
      have hh := ih (n / 10) (by omega) (by omega)
      rw [e] at hh ⊢
      simpa using hh

theorem digitsVal_append (xs ys : List Char) : ∀ acc,
    digitsVal (xs ++ ys) acc = digitsVal ys (digitsVal xs acc) := by
  induction xs with
  | nil => intro acc; rfl
  | cons c cs ih =>
    intro acc
    simp only [List.cons_append, digitsVal]
    exact ih _

theorem digitsVal_natToDigits (n : ℕ) : digitsVal (natToDigits n) 0 = n := by
  induction n using Nat.strong_induction_on with
  | _ n ih =>
    by_cases hn : n < 10
    · rw [natToDigits_base n hn]
      simp [digitsVal, digitChar_toNat n hn]
    · rw [natToDigits_step n hn, digitsVal_append]
      rw [ih (n / 10) (by omega)]
      simp only [digitsVal, digitChar_toNat (n % 10) (by omega)]
      omega

theorem dropWhile_eq_self_of (p : Char → Bool) (l : List Char)
    (h : ∀ c ∈ l, p c = false) : List.dropWhile p l = l := by
  cases l with
  | nil => rfl
  | cons a as =>
    rw [List.dropWhile_cons, if_neg]
    rw [h a (List.mem_cons_self a as)]
    decide

theorem reverse_trim_of_clean (cs : List Char)
    (h : ∀ c ∈ cs, (c == ' ') = false) :
    (cs.reverse.dropWhile (fun c => c == ' ')).reverse = cs := by
  rw [dropWhile_eq_self_of _ _ (fun c hc => h c (List.mem_reverse.mp hc)),
    List.reverse_reverse]

theorem trimSpaces_no_space (cs : List Char)
    (h : ∀ c ∈ cs, (c == ' ') = false) : trimSpaces cs = cs := by
  rw [trimSpaces, dropWhile_eq_self_of _ _ h, reverse_trim_of_clean cs h]

theorem trimSpaces_space_cons (cs : List Char)
    (h : ∀ c ∈ cs, (c == ' ') = false) : trimSpaces (' ' :: cs) = cs := by
  rw [trimSpaces, List.dropWhile_cons, if_pos (by decide),
    dropWhile_eq_self_of _ _ h, reverse_trim_of_clean cs h]

theorem splitOnComma_no_comma (cs : List Char)
    (h : ∀ c ∈ cs, ¬c = ',') : splitOnComma cs = [cs] := by
  induction cs with
  | nil => rfl
  | cons c rest ih =>
    rw [splitOnComma, if_neg (h c (List.mem_cons_self c rest)),
      ih (fun x hx => h x (List.mem_cons_of_mem c hx))]

theorem splitOnComma_append (a b : List Char)
    (h : ∀ c ∈ a, ¬c = ',') :
    splitOnComma (a ++ ',' :: b) = a :: splitOnComma b := by
  induction a with
  | nil =>
    simp only [List.nil_append]
    rw [splitOnComma, if_pos rfl]
  | cons c a ih =>
    simp only [List.cons_append]
    rw [splitOnComma, if_neg (h c (List.mem_cons_self c a)),
      ih (fun x hx => h x (List.mem_cons_of_mem c hx))]

theorem splitOnComma_ne_nil (cs : List Char) : splitOnComma cs ≠ [] := by
  induction cs with
  | nil => simp [splitOnComma]
  | cons c rest ih =>
    rw [splitOnComma]
    split
    · simp
    · cases e : splitOnComma rest with
      | nil => exact absurd e ih
      | cons p ps => simp [e]

theorem splitOnComma_cons_no_comma (c : Char) (x : List Char) (hc : ¬c = ',') :
    splitOnComma (c :: x) =
      (c :: (splitOnComma x).headI) :: (splitOnComma x).tail := by
  rw [splitOnComma, if_neg hc]
  cases e : splitOnComma x with
  | nil => exact absurd e (splitOnComma_ne_nil x)
  | cons p ps => simp [List.headI]

theorem splitOnComma_sepJoin (p : List Char) (ps : List (List Char))
    (hp : ∀ c ∈ p, ¬c = ',')
    (hps : ∀ q ∈ ps, ∀ c ∈ q, ¬c = ',') :
    splitOnComma (sepJoin (p :: ps)) = p :: ps.map (fun q => ' ' :: q) := by
  induction ps generalizing p with
  | nil => exact splitOnComma_no_comma p hp
  | cons q qs ih =>
    show splitOnComma (p ++ ',' :: (' ' :: sepJoin (q :: qs)))
        = p :: (' ' :: q) :: qs.map (fun x => ' ' :: x)
    rw [splitOnComma_append _ _ hp]
    have hq := ih q (hps q (List.mem_cons_self q qs))
      (fun x hx => hps x (List.mem_cons_of_mem q hx))
    rw [splitOnComma_cons_no_comma ' ' _ (by decide), hq]
    simp [List.headI]

theorem natToDigits_no_space (n : ℕ) :
    ∀ c ∈ natToDigits n, (c == ' ') = false := by
  intro c hc
  have hall := natToDigits_all_digits n
  rw [List.all_eq_true] at hall
  exact isDigit_ne_space c (hall c hc)

theorem natToDigits_no_comma (n : ℕ) :
    ∀ c ∈ natToDigits n, ¬c = ',' := by
  intro c hc
  have hall := natToDigits_all_digits n
  rw [List.all_eq_true] at hall
  exact isDigit_ne_comma c (hall c hc)

theorem parseDigitsStrict_natToDigits (n : ℕ) :
    parseDigitsStrict (natToDigits n) = some n := by
  rw [parseDigitsStrict, if_pos, digitsVal_natToDigits]
  refine ⟨natToDigits_ne_nil n, natToDigits_all_digits n, ?_⟩
  by_cases h0 : n = 0
  · subst h0
    left
    rw [natToDigits_base 0 (by omega)]
    rfl
  · right
    exact natToDigits_head n h0

theorem parsePiece_natToDigits (n : ℕ) :
    parsePiece (natToDigits n) = some n := by
  rw [parsePiece, trimSpaces_no_space _ (natToDigits_no_space n),
    parseDigitsStrict_natToDigits]

theorem parsePiece_space_natToDigits (n : ℕ) :
    parsePiece (' ' :: natToDigits n) = some n := by
  rw [parsePiece, trimSpaces_space_cons _ (natToDigits_no_space n),
    parseDigitsStrict_natToDigits]

theorem parsePieces_cons_eq (p : List Char) (ps : List (List Char)) (n : ℕ)
    (ns : List ℕ) (h1 : parsePiece p = some n) (h2 : parsePieces ps = some ns) :
    parsePieces (p :: ps) = some (n :: ns) := by
  simp only [parsePieces, h1, h2]

theorem parsePieces_spaced (bs : List ℕ) :
    parsePieces (bs.map (fun b => ' ' :: natToDigits b)) = some bs := by
  induction bs with
  | nil => rfl
  | cons b bs ih =>
    simp only [List.map_cons, parsePieces, parsePiece_space_natToDigits b, ih]

theorem trimSpaces_natToDigits_ne_nil (n : ℕ) :
    trimSpaces (natToDigits n) ≠ [] := by
  rw [trimSpaces_no_space _ (natToDigits_no_space n)]
  exact natToDigits_ne_nil n

theorem trimSpaces_space_natToDigits_ne_nil (n : ℕ) :
    trimSpaces (' ' :: natToDigits n) ≠ [] := by
  rw [trimSpaces_space_cons _ (natToDigits_no_space n)]
  exact natToDigits_ne_nil n

theorem sepJoin_all_allowed (ps : List (List Char))
    (h : ∀ p ∈ ps, p.all Char.isDigit = true) :
    (sepJoin ps).all isAllowedChar = true := by
  induction ps with
  | nil => rfl
  | cons p rest ih =>
    have hp : p.all isAllowedChar = true := by
      rw [List.all_eq_true]
      intro c hc
      have hd := h p (List.mem_cons_self p rest)
      rw [List.all_eq_true] at hd
      simp [isAllowedChar, hd c hc]
    cases rest with
    | nil => exact hp
    | cons q qs =>
      show ((p ++ ',' :: ' ' :: sepJoin (q :: qs)).all isAllowedChar) = true
      rw [List.all_append]
      refine Bool.and_eq_true_iff.mpr ⟨hp, ?_⟩
      show (isAllowedChar ',' && (isAllowedChar ' '
        && (sepJoin (q :: qs)).all isAllowedChar)) = true
      rw [ih (fun x hx => h x (List.mem_cons_of_mem p hx))]
      decide

theorem matchReprInner_of_shape (name mid : List Char)
    (hmid : mid.all isAllowedChar = true) :
    matchReprInner name (name ++ '(' :: (mid ++ [')'])) = some mid := by
  rw [matchReprInner,
    if_pos (List.isPrefixOf_iff_prefix.mpr (List.prefix_append _ _))]
  simp only [List.drop_left]
  rw [if_pos]
  · simp
  · simp only [List.head?_cons, List.getLast?_cons, List.length_cons,
      List.drop_one, List.tail_cons, List.dropLast_concat]
    rw [List.getLast?_concat, hmid]
    simp

theorem getLastD_mem (l : List (List Char)) (h : l ≠ []) :
    l.getLast?.getD [] ∈ l := by
  cases e : l.getLast? with
  | none => exact absurd (List.getLast?_eq_none_iff.mp e) h
  | some a =>
    simp only [Option.getD_some]
    exact List.mem_of_mem_getLast? e

theorem parseMiddle_sepJoin (bs : List ℕ) :
    parseMiddle (sepJoin (bs.map natToDigits)) = some bs := by
  cases bs with
  | nil => rfl
  | cons b bs2 =>
    cases bs2 with
    | nil =>
      have hsplit : splitOnComma (sepJoin ([b].map natToDigits))
          = [natToDigits b] := by
        show splitOnComma (sepJoin [natToDigits b]) = [natToDigits b]
        exact splitOnComma_no_comma _ (natToDigits_no_comma b)
      simp only [parseMiddle]
      rw [hsplit, if_pos (by simp), if_neg ?hne]
      · show Option.map (fun n => [n]) (parsePiece (natToDigits b)) = some [b]
        rw [parsePiece_natToDigits]
        rfl
      case hne =>
        show ¬trimSpaces (natToDigits b) = []
        exact trimSpaces_natToDigits_ne_nil b
    | cons b2 rest =>
      have hnc : ∀ q ∈ (b2 :: rest).map natToDigits, ∀ c ∈ q, ¬c = ',' := by
        intro q hq c hc
        obtain ⟨m, _, rfl⟩ := List.mem_map.mp hq
        exact natToDigits_no_comma m c hc
      have hsplit : splitOnComma (sepJoin ((b :: b2 :: rest).map natToDigits))
          = natToDigits b :: ((b2 :: rest).map natToDigits).map (fun q => ' ' :: q) := by
        show splitOnComma (sepJoin (natToDigits b :: (b2 :: rest).map natToDigits)) = _
        exact splitOnComma_sepJoin _ _ (natToDigits_no_comma b) hnc
      have hmemtrim : ∀ q ∈ natToDigits b
            :: ((b2 :: rest).map natToDigits).map (fun q => ' ' :: q),
          trimSpaces q ≠ [] := by
        intro q hq
        rcases List.mem_cons.mp hq with h | h
        · subst h
          exact trimSpaces_natToDigits_ne_nil b
        · obtain ⟨q2, hq2, rfl⟩ := List.mem_map.mp h
          obtain ⟨m, _, rfl⟩ := List.mem_map.mp hq2
          exact trimSpaces_space_natToDigits_ne_nil m
      have hlast : trimSpaces ((natToDigits b
            :: ((b2 :: rest).map natToDigits).map (fun q => ' ' :: q)).getLast?.getD [])
          ≠ [] :=
        hmemtrim _ (getLastD_mem _ (by simp))
      simp only [parseMiddle]
      rw [hsplit, if_neg (by simp), if_neg hlast]
      have htail : ((b2 :: rest).map natToDigits).map (fun q => ' ' :: q)
          = (b2 :: rest).map (fun m => ' ' :: natToDigits m) := by
        rw [List.map_map]
        rfl
      rw [htail]
      exact parsePieces_cons_eq _ _ _ _ (parsePiece_natToDigits b)
        (parsePieces_spaced (b2 :: rest))

/-- Claim C8 (amended): for every valid sparse set `S` (bits in
`[0, BIT_COUNT)`), decoding the canonical text `repr` of the set with
`from_repr` recovers exactly `S` (including the empty and single-element
cases), and `from_repr` fails with the format `ValueError` on every input
the anchored `TypeName(\([\d, ]*\))` pattern rejects. (The original claim
that EVERY non-canonical input is rejected is refuted separately: inputs
matching the pattern with bits out of canonical order are accepted.) -/
theorem from_repr_round_trip (name : List Char) (bitCount : ℕ) (S : Finset ℤ)
    (hb : ∀ b ∈ S, 0 ≤ b ∧ b < (bitCount : ℤ)) :
    from_repr name bitCount (reprChars name S) = .ok S
    ∧ (∀ s, matchReprInner name s = none →
        from_repr name bitCount s = .error .valueError) := by
  constructor
  · have hsortmem : ∀ b ∈ S.sort (· ≤ ·), b ∈ S :=
      fun b hb2 => (Finset.mem_sort _).mp hb2
    have hpieces : (S.sort (· ≤ ·)).map intToChars
        = ((S.sort (· ≤ ·)).map Int.toNat).map natToDigits := by
      rw [List.map_map]
      refine List.map_congr_left ?_
      intro b hb2
      have h0 := (hb b (hsortmem b hb2)).1
      show intToChars b = natToDigits b.toNat
      rw [intToChars, if_neg (not_lt.mpr h0)]
    have hrepr : reprChars name S
        = name ++ '(' :: (sepJoin (((S.sort (· ≤ ·)).map Int.toNat).map natToDigits)
            ++ [')']) := by
      rw [reprChars, hpieces]
    have hallowed : (sepJoin (((S.sort (· ≤ ·)).map Int.toNat).map natToDigits)).all
        isAllowedChar = true := by
      refine sepJoin_all_allowed _ ?_
      intro p hp
      obtain ⟨m, _, rfl⟩ := List.mem_map.mp hp
      exact natToDigits_all_digits m
    rw [hrepr, from_repr, matchReprInner_of_shape name _ hallowed,
      Option.elim_some, parseMiddle_sepJoin ((S.sort (· ≤ ·)).map Int.toNat),
      Option.elim_some]
    have hLof : (((S.sort (· ≤ ·)).map Int.toNat).map Int.ofNat) = S.sort (· ≤ ·) := by
      rw [List.map_map]
      conv_rhs => rw [← List.map_id (S.sort (· ≤ ·))]
      refine List.map_congr_left ?_
      intro b hb2
      show Int.ofNat b.toNat = b
      exact Int.toNat_of_nonneg ((hb b (hsortmem b hb2)).1)
    rw [hLof, show (S.sort (· ≤ ·)).toFinset = S from Finset.sort_toFinset _ S,
      ofBitSet, if_pos (fun i hi => (hb i hi).2)]
  · intro s h
    rw [from_repr, h, Option.elim_none]

/-- Witness for C8's amended round trip at `S = {3, 5}` on a 128-bit set. -/
theorem from_repr_round_trip_witness :
    (∀ b ∈ ({3, 5} : Finset ℤ), 0 ≤ b ∧ b < ((128 : ℕ) : ℤ))
    ∧ from_repr gbs128TypeName 128 (reprChars gbs128TypeName ({3, 5} : Finset ℤ))
        = .ok ({3, 5} : Finset ℤ) :=
  ⟨by decide,
    (from_repr_round_trip gbs128TypeName 128 ({3, 5} : Finset ℤ) (by decide)).1⟩

/-- Counterexample for C8 as stated: `"GroupBitSet128(5, 3)"` is not the
canonical repr of any bit set (the canonical text for its membership
`{3, 5}` is `"GroupBitSet128(3, 5)"`), yet `from_repr` accepts it instead
of failing with a format error. -/
theorem from_repr_accepts_non_canonical :
    from_repr gbs128TypeName 128 ("GroupBitSet128(5, 3)".toList)
        = .ok ({5, 3} : Finset ℤ)
    ∧ ({5, 3} : Finset ℤ) = ({3, 5} : Finset ℤ)
    ∧ reprChars gbs128TypeName ({3, 5} : Finset ℤ) = "GroupBitSet128(3, 5)".toList
    ∧ "GroupBitSet128(5, 3)".toList ≠ "GroupBitSet128(3, 5)".toList := by
  have hsort : ({3, 5} : Finset ℤ).sort (· ≤ ·) = [3, 5] := by
    have h1 : ∀ b ∈ ({5} : Finset ℤ), (3 : ℤ) ≤ b := by decide
    have h2 : (3 : ℤ) ∉ ({5} : Finset ℤ) := by decide
    rw [Finset.sort_insert _ h1 h2, Finset.sort_singleton]
  refine ⟨by decide, Finset.pair_comm 5 3, ?_, by decide⟩
  rw [reprChars, hsort]
  decide

end Soulstruct
